import Mathlib

/-!
# The Casino ("Yard Sale") wealth simulation of `rich.go`

A shallow embedding of the trade rule, the pair selection, the chart scaling
and the round loop of `rich.go`, with wealth as exact rationals, followed by
the properties of the simulation proved over that embedding.

Conventions of the embedding:
* a Go slice `agents` is a `List ℚ`; an index outside the slice (a Go run-time
  panic) makes the operation return `none`; indices are natural numbers, as
  `rand.Intn` returns no negative value;
* the package-level random generator is a stream `rnd : Nat → Nat` of the
  successive results of `rand.Intn(numOfAgents)` together with the position of
  the next draw;
* the `done` channel is an oracle `done : Nat → Bool`: `done n` tells whether
  the non-blocking receive at the end of loop iteration `n` yields a value;
* the rejection loop of `pickTwoRandomAgents` is bounded by `fuel` redraws;
  running out of fuel is `none`.
-/

namespace Rich

/-! ## Constants and types -/

/-- Number of agents in the market. -/
def numOfAgents : Nat := 10

/-- Initial amount of money that each agent owns. -/
def initialWealth : ℚ := 100

/-- How many trades to simulate. -/
def rounds : Nat := 10000

/-- Share of the poorer agent's wealth that moves when the poorer agent gains. -/
def percentGain : ℚ := 20 / 100

/-- Share of the poorer agent's wealth that moves when the poorer agent loses. -/
def percentLoss : ℚ := 17 / 100

/-- Agents are defined by the amount of money, or wealth, they have. -/
abbrev agents := List ℚ

/-! ## Pair selection -/

/-- The loop `for receiver == sender { receiver = rand.Intn(numOfAgents) }`:
`receiver` is the current value, `pos` the position of the next draw.  The
result is the receiver at loop exit and the position of the next unused draw. -/
def redraw (rnd : Nat → Nat) (sender : Nat) : Nat → Nat → Nat → Option (Nat × Nat)
  | 0, receiver, pos => if receiver = sender then none else some (receiver, pos)
  | fuel + 1, receiver, pos =>
    if receiver = sender then redraw rnd sender fuel (rnd pos) (pos + 1)
    else some (receiver, pos)

/-- The function `pickTwoRandomAgents`: `sender` is the first draw, `receiver`
starts equal to `sender` and is redrawn until it differs.  Returns
`(sender, receiver)` and the position of the next unused draw. -/
def pickTwoRandomAgents (rnd : Nat → Nat) (fuel pos : Nat) : Option ((Nat × Nat) × Nat) :=
  let sender := rnd pos
  let receiver := sender
  match redraw rnd sender fuel receiver (pos + 1) with
  | some (receiver, pos1) => some ((sender, receiver), pos1)
  | none => none

/-! ## The trade -/

/-- The local variable `transfer` of `trade`: `a[receiver] * percentGain`,
replaced by `a[sender] * percentLoss` when `a[sender] < a[receiver]`. -/
def transfer (a : agents) (sender receiver : Nat) : Option ℚ :=
  match a[receiver]? with
  | none => none
  | some wr =>
    match a[sender]? with
    | none => none
    | some ws => some (if ws < wr then ws * percentLoss else wr * percentGain)

/-- The function `trade`: computes `transfer`, then executes
`a[sender] -= transfer` and after it `a[receiver] += transfer` on the
updated slice. -/
def trade (a : agents) (sender receiver : Nat) : Option agents :=
  match transfer a sender receiver with
  | none => none
  | some t =>
    match a[sender]? with
    | none => none
    | some ws =>
      let a1 := a.set sender (ws - t)
      match a1[receiver]? with
      | none => none
      | some wr => some (a1.set receiver (wr + t))

/-! ## The chart -/

/-- The two fields of `widgets.BarChart` written by `drawChart`. -/
structure BarChart where
  Data : List ℚ
  MaxVal : ℚ
  deriving DecidableEq

/-- Modelled from the spec: `ui.GetMaxFloat64FromSlice` belongs to the termui
library and is not in the source; it yields the largest value of the slice,
scanning from the zero value of `float64` (so `0` for an empty slice, whose
error `drawChart` drops). -/
def getMaxFloat64FromSlice (a : List ℚ) : ℚ :=
  a.foldl (fun m v => if v > m then v else m) 0

/-- The local `maxPossibleWealth` of `drawChart`. -/
def maxPossibleWealth : ℚ := initialWealth * numOfAgents

/-- The function `drawChart` without the rendering: stores the data and the
dynamic scale in the chart. -/
def drawChart (a : agents) (_bc : BarChart) : BarChart :=
  let currentMaxWealth := getMaxFloat64FromSlice a
  { Data := a
    MaxVal := currentMaxWealth + (maxPossibleWealth - currentMaxWealth) * (5 / 100) }

/-! ## The round loop -/

/-- What the loop of `run` reads and writes: the population, the chart and
the position of the next random draw. -/
structure Sim where
  a : agents
  bc : BarChart
  pos : Nat
  deriving DecidableEq

/-- One loop body of `run` up to the cancellation check: pick, trade, draw. -/
def round (rnd : Nat → Nat) (fuel : Nat) (s : Sim) : Option Sim :=
  match pickTwoRandomAgents rnd fuel s.pos with
  | none => none
  | some ((sender, receiver), pos1) =>
    match trade s.a sender receiver with
    | none => none
    | some a1 => some { a := a1, bc := drawChart a1 s.bc, pos := pos1 }

/-- The loop `for n := ...; n < rounds; n++` of `run` with `k` iterations
left, `n` being the loop variable: after each body the `done` channel is
polled and the function returns at once when it yields. -/
def runLoop (rnd : Nat → Nat) (done : Nat → Bool) (fuel : Nat) : Nat → Nat → Sim → Option Sim
  | 0, _, s => some s
  | k + 1, n, s =>
    match round rnd fuel s with
    | none => none
    | some s1 => if done n then some s1 else runLoop rnd done fuel k (n + 1) s1

/-- The function `run`: the loop from `n = 0` with `rounds` iterations. -/
def run (rnd : Nat → Nat) (done : Nat → Bool) (fuel : Nat) (s : Sim) : Option Sim :=
  runLoop rnd done fuel rounds 0 s

/-- The population built by `main`: `numOfAgents` entries, each set to
`initialWealth`. -/
def mainAgents : agents := List.replicate numOfAgents initialWealth

/-- The state in which `main` calls `run`: the initial population, a fresh
chart and the first draw of the generator. -/
def mainSim : Sim := { a := mainAgents, bc := { Data := [], MaxVal := 0 }, pos := 0 }

/-- The simulation part of `main`. -/
def main (rnd : Nat → Nat) (done : Nat → Bool) (fuel : Nat) : Option Sim :=
  run rnd done fuel mainSim

/-! ## Auxiliary definitions for the statements -/

/-- The value given to `transfer` when the sender holds `ws` and the receiver
holds `wr`. -/
def amount (ws wr : ℚ) : ℚ := if ws < wr then ws * percentLoss else wr * percentGain

/-- Applying a list of trades, in order, to a population. -/
def trades : List (Nat × Nat) → agents → Option agents
  | [], a => some a
  | (sender, receiver) :: ps, a =>
    match trade a sender receiver with
    | none => none
    | some a1 => trades ps a1

/-- The first `K` pairs that `pickTwoRandomAgents` returns from position `pos`
of the random stream on. -/
def picks (rnd : Nat → Nat) (fuel : Nat) : Nat → Nat → Option (List (Nat × Nat))
  | 0, _ => some []
  | K + 1, pos =>
    match pickTwoRandomAgents rnd fuel pos with
    | none => none
    | some (p, pos1) =>
      match picks rnd fuel K pos1 with
      | none => none
      | some ps => some (p :: ps)

/-- Exactly `K` loop bodies of `run`, one after the other, with no
cancellation check. -/
def nRounds (rnd : Nat → Nat) (fuel : Nat) : Nat → Sim → Option Sim
  | 0, s => some s
  | K + 1, s =>
    match round rnd fuel s with
    | none => none
    | some s1 => nRounds rnd fuel K s1

/-- The random stream yields integers in `[0, numOfAgents)`. -/
def InRange (rnd : Nat → Nat) : Prop := ∀ i, rnd i < numOfAgents

/-- After every draw, one of the next `fuel` draws has a different value, so
the rejection loop ends within `fuel` redraws. -/
def Fair (rnd : Nat → Nat) (fuel : Nat) : Prop :=
  ∀ p, ∃ j, j < fuel ∧ rnd (p + 1 + j) ≠ rnd p

/-- A stream of draws used in the examples: `0, 1, 2, ...` modulo
`numOfAgents`. -/
def cycle (i : Nat) : Nat := i % numOfAgents

/-- The state after the first round of a run on the stream `cycle`: agent 0
pays 20 to agent 1. -/
def afterFirstRound : Sim :=
  { a := [80, 120, 100, 100, 100, 100, 100, 100, 100, 100]
    bc := { Data := [80, 120, 100, 100, 100, 100, 100, 100, 100, 100], MaxVal := 164 }
    pos := 2 }

/-! ## Facts about `trade` -/

theorem transfer_eq (a : agents) (sender receiver : Nat)
    (hs : sender < a.length) (hr : receiver < a.length) :
    transfer a sender receiver = some (amount a[sender] a[receiver]) := by
  simp [transfer, amount, List.getElem?_eq_getElem hs, List.getElem?_eq_getElem hr]

/-- With distinct indices inside the slice, `trade` returns the slice with
the amount taken from `a[sender]` and added to `a[receiver]`. -/
theorem trade_eq (a : agents) (sender receiver : Nat) (hne : sender ≠ receiver)
    (hs : sender < a.length) (hr : receiver < a.length) :
    trade a sender receiver =
      some ((a.set sender (a[sender] - amount a[sender] a[receiver])).set receiver
        (a[receiver] + amount a[sender] a[receiver])) := by
  have hr1 : receiver < (a.set sender (a[sender] - amount a[sender] a[receiver])).length := by
    simpa using hr
  simp only [trade, transfer_eq a sender receiver hs hr, List.getElem?_eq_getElem hs,
    List.getElem?_eq_getElem hr1, List.getElem_set_ne hne]

theorem amount_nonneg {ws wr : ℚ} (hs : 0 ≤ ws) (hr : 0 ≤ wr) : 0 ≤ amount ws wr := by
  unfold amount percentLoss percentGain
  split_ifs <;> positivity

theorem amount_pos {ws wr : ℚ} (hs : 0 < ws) (hr : 0 < wr) : 0 < amount ws wr := by
  unfold amount percentLoss percentGain
  split_ifs <;> positivity

theorem amount_le (ws wr : ℚ) (hs : 0 ≤ ws) : amount ws wr ≤ ws := by
  unfold amount percentLoss percentGain
  split_ifs with h
  · linarith
  · push_neg at h; linarith

theorem amount_lt (ws wr : ℚ) (hs : 0 < ws) : amount ws wr < ws := by
  unfold amount percentLoss percentGain
  split_ifs with h
  · linarith
  · push_neg at h; linarith

/-- Writing two distinct entries changes the sum by the two differences. -/
theorem sum_set_set (a : List ℚ) (i j : Nat) (hne : i ≠ j) (hi : i < a.length)
    (hj : j < a.length) (x y : ℚ) :
    ((a.set i x).set j y).sum = a.sum - a[i] + x - a[j] + y := by
  have hj1 : j < (a.set i x).length := by simpa using hj
  rw [List.sum_set', List.sum_set', dif_pos hi, dif_pos hj1, List.getElem_set_ne hne]
  ring

theorem trade_sum (a : agents) (sender receiver : Nat) (hne : sender ≠ receiver)
    (hs : sender < a.length) (hr : receiver < a.length) :
    ∃ a1, trade a sender receiver = some a1 ∧ a1.sum = a.sum ∧ a1.length = a.length := by
  refine ⟨_, trade_eq a sender receiver hne hs hr, ?_, by simp⟩
  rw [sum_set_set a sender receiver hne hs hr]
  ring

/-- Every entry of a slice written at two places is an old entry or one of
the two written values. -/
theorem mem_set_set {a : List ℚ} {i j : Nat} {x y z : ℚ}
    (h : z ∈ (a.set i x).set j y) : z ∈ a ∨ z = x ∨ z = y := by
  rcases List.mem_or_eq_of_mem_set h with h1 | h1
  · rcases List.mem_or_eq_of_mem_set h1 with h2 | h2
    · exact Or.inl h2
    · exact Or.inr (Or.inl h2)
  · exact Or.inr (Or.inr h1)

theorem trade_nonneg (a : agents) (sender receiver : Nat) (hne : sender ≠ receiver)
    (hs : sender < a.length) (hr : receiver < a.length) (h0 : ∀ x ∈ a, 0 ≤ x) :
    ∃ a1, trade a sender receiver = some a1 ∧ ∀ x ∈ a1, 0 ≤ x := by
  refine ⟨_, trade_eq a sender receiver hne hs hr, ?_⟩
  have h1 : 0 ≤ a[sender] := h0 _ (List.getElem_mem hs)
  have h2 : 0 ≤ a[receiver] := h0 _ (List.getElem_mem hr)
  intro x hx
  rcases mem_set_set hx with h | h | h
  · exact h0 x h
  · rw [h]; linarith [amount_le a[sender] a[receiver] h1]
  · rw [h]; linarith [amount_nonneg h1 h2]

theorem trade_pos (a : agents) (sender receiver : Nat) (hne : sender ≠ receiver)
    (hs : sender < a.length) (hr : receiver < a.length) (h0 : ∀ x ∈ a, 0 < x) :
    ∃ a1, trade a sender receiver = some a1 ∧ ∀ x ∈ a1, 0 < x := by
  refine ⟨_, trade_eq a sender receiver hne hs hr, ?_⟩
  have h1 : 0 < a[sender] := h0 _ (List.getElem_mem hs)
  have h2 : 0 < a[receiver] := h0 _ (List.getElem_mem hr)
  intro x hx
  rcases mem_set_set hx with h | h | h
  · exact h0 x h
  · rw [h]; linarith [amount_lt a[sender] a[receiver] h1]
  · rw [h]; linarith [amount_pos h1 h2]

/-- A trade that returns had both indices inside the slice. -/
theorem trade_some_lt {a a1 : agents} {sender receiver : Nat}
    (h : trade a sender receiver = some a1) : sender < a.length ∧ receiver < a.length := by
  by_contra hcon
  rw [not_and_or] at hcon
  rcases hcon with hc | hc
  · have : a[sender]? = none := List.getElem?_eq_none (by omega)
    simp only [trade, transfer, this] at h
    split at h <;> simp at h
  · have : a[receiver]? = none := List.getElem?_eq_none (by omega)
    simp [trade, transfer, this] at h

theorem redraw_spec (rnd : Nat → Nat) (sender N : Nat) (hN : ∀ i, rnd i < N) :
    ∀ fuel receiver pos r p, receiver < N →
      redraw rnd sender fuel receiver pos = some (r, p) → r ≠ sender ∧ r < N := by
  intro fuel
  induction fuel with
  | zero =>
    intro receiver pos r p hrec h
    simp only [redraw] at h
    split_ifs at h with hc
    simp only [Option.some.injEq, Prod.mk.injEq] at h
    exact ⟨h.1 ▸ hc, h.1 ▸ hrec⟩
  | succ fuel ih =>
    intro receiver pos r p hrec h
    simp only [redraw] at h
    split_ifs at h with hc
    · exact ih (rnd pos) (pos + 1) r p (hN pos) h
    · simp only [Option.some.injEq, Prod.mk.injEq] at h
      exact ⟨h.1 ▸ hc, h.1 ▸ hrec⟩

/-- A redraw that returns gives a receiver different from the sender, whatever
the stream yields. -/
theorem redraw_ne (rnd : Nat → Nat) (sender : Nat) :
    ∀ fuel receiver pos r p,
      redraw rnd sender fuel receiver pos = some (r, p) → r ≠ sender := by
  intro fuel
  induction fuel with
  | zero =>
    intro receiver pos r p h
    simp only [redraw] at h
    split_ifs at h with hc
    simp only [Option.some.injEq, Prod.mk.injEq] at h
    exact h.1 ▸ hc
  | succ fuel ih =>
    intro receiver pos r p h
    simp only [redraw] at h
    split_ifs at h with hc
    · exact ih (rnd pos) (pos + 1) r p h
    · simp only [Option.some.injEq, Prod.mk.injEq] at h
      exact h.1 ▸ hc

theorem redraw_total (rnd : Nat → Nat) (sender : Nat) :
    ∀ fuel receiver pos, (∃ j, j < fuel ∧ rnd (pos + j) ≠ sender) →
      ∃ res, redraw rnd sender fuel receiver pos = some res := by
  intro fuel
  induction fuel with
  | zero => rintro receiver pos ⟨j, hj, _⟩; omega
  | succ fuel ih =>
    rintro receiver pos ⟨j, hj, hne⟩
    simp only [redraw]
    split_ifs with hc
    · cases j with
      | zero =>
        have hne1 : rnd pos ≠ sender := by simpa using hne
        cases fuel with
        | zero => exact ⟨(rnd pos, pos + 1), by simp [redraw, hne1]⟩
        | succ f => exact ⟨(rnd pos, pos + 1), by simp [redraw, hne1]⟩
      | succ j =>
        apply ih
        exact ⟨j, by omega, by rwa [show pos + 1 + j = pos + (j + 1) by omega]⟩
    · exact ⟨_, rfl⟩

theorem pick_ne (rnd : Nat → Nat) (fuel pos sender receiver pos1 : Nat)
    (h : pickTwoRandomAgents rnd fuel pos = some ((sender, receiver), pos1)) :
    sender ≠ receiver := by
  simp only [pickTwoRandomAgents] at h
  split at h
  · next r p heq =>
    simp only [Option.some.injEq, Prod.mk.injEq] at h
    have := redraw_ne rnd _ _ _ _ _ _ heq
    rw [← h.1.1, ← h.1.2]; exact fun e => this e.symm
  · simp at h

theorem pick_lt (rnd : Nat → Nat) (N : Nat) (hN : ∀ i, rnd i < N)
    (fuel pos sender receiver pos1 : Nat)
    (h : pickTwoRandomAgents rnd fuel pos = some ((sender, receiver), pos1)) :
    sender < N ∧ receiver < N := by
  simp only [pickTwoRandomAgents] at h
  split at h
  · next r p heq =>
    simp only [Option.some.injEq, Prod.mk.injEq] at h
    have := redraw_spec rnd _ N hN _ _ _ _ _ (hN pos) heq
    rw [← h.1.1, ← h.1.2]; exact ⟨hN pos, this.2⟩
  · simp at h

theorem pick_total (rnd : Nat → Nat) (fuel : Nat) (hf : Fair rnd fuel) (pos : Nat) :
    ∃ res, pickTwoRandomAgents rnd fuel pos = some res := by
  obtain ⟨res, hres⟩ := redraw_total rnd (rnd pos) fuel (rnd pos) (pos + 1) (hf pos)
  exact ⟨((rnd pos, res.1), res.2), by simp [pickTwoRandomAgents, hres]⟩

/-! ## Facts about one round and about the loop -/

/-- A round that returns has picked a pair of distinct indices inside the
slice, traded between them and drawn the new population. -/
theorem round_some {rnd : Nat → Nat} {fuel : Nat} {s s1 : Sim}
    (h : round rnd fuel s = some s1) :
    ∃ sender receiver, pickTwoRandomAgents rnd fuel s.pos = some ((sender, receiver), s1.pos) ∧
      sender ≠ receiver ∧ sender < s.a.length ∧ receiver < s.a.length ∧
      trade s.a sender receiver = some s1.a ∧ s1.bc = drawChart s1.a s.bc := by
  simp only [round] at h
  split at h
  · simp at h
  · next sender receiver pos1 hp =>
    split at h
    · simp at h
    · next a1 ht =>
      simp only [Option.some.injEq] at h
      subst h
      exact ⟨sender, receiver, hp, pick_ne rnd fuel _ _ _ _ hp, (trade_some_lt ht).1,
        (trade_some_lt ht).2, ht, rfl⟩

theorem round_total {rnd : Nat → Nat} {fuel : Nat} (hr : InRange rnd) (hf : Fair rnd fuel)
    (s : Sim) (hlen : s.a.length = numOfAgents) :
    ∃ s1, round rnd fuel s = some s1 := by
  obtain ⟨⟨⟨sender, receiver⟩, pos1⟩, hp⟩ := pick_total rnd fuel hf s.pos
  have hne := pick_ne rnd fuel _ _ _ _ hp
  have hlt := pick_lt rnd numOfAgents hr fuel _ _ _ _ hp
  have ht := trade_eq s.a sender receiver hne (by omega) (by omega)
  simp only [round, hp, ht]
  exact ⟨_, rfl⟩

theorem round_sum {rnd : Nat → Nat} {fuel : Nat} {s s1 : Sim}
    (h : round rnd fuel s = some s1) : s1.a.sum = s.a.sum ∧ s1.a.length = s.a.length := by
  obtain ⟨sender, receiver, -, hne, hs, hr, ht, -⟩ := round_some h
  obtain ⟨a1, h1, h2, h3⟩ := trade_sum s.a sender receiver hne hs hr
  rw [ht] at h1
  cases h1
  exact ⟨h2, h3⟩

theorem round_pos {rnd : Nat → Nat} {fuel : Nat} {s s1 : Sim}
    (h : round rnd fuel s = some s1) (h0 : ∀ x ∈ s.a, 0 < x) : ∀ x ∈ s1.a, 0 < x := by
  obtain ⟨sender, receiver, -, hne, hs, hr, ht, -⟩ := round_some h
  obtain ⟨a1, h1, h2⟩ := trade_pos s.a sender receiver hne hs hr h0
  rw [ht] at h1
  cases h1
  exact h2

/-- A property of the state kept by every round holds for `K` rounds in a row. -/
theorem nRounds_induct {rnd : Nat → Nat} {fuel : Nat} (P : Sim → Prop)
    (hstep : ∀ s s1, P s → round rnd fuel s = some s1 → P s1) :
    ∀ K s s1, P s → nRounds rnd fuel K s = some s1 → P s1 := by
  intro K
  induction K with
  | zero => intro s s1 hP h; simp only [nRounds, Option.some.injEq] at h; exact h ▸ hP
  | succ K ih =>
    intro s s1 hP h
    simp only [nRounds] at h
    split at h
    · simp at h
    · next s2 hr => exact ih s2 s1 (hstep s s2 hP hr) h

/-- Whatever the `done` channel does, the loop returns the state after some
whole number of rounds, at most the number of iterations left. -/
theorem runLoop_some {rnd : Nat → Nat} {done : Nat → Bool} {fuel : Nat} :
    ∀ k n s s1, runLoop rnd done fuel k n s = some s1 →
      ∃ K, K ≤ k ∧ nRounds rnd fuel K s = some s1 := by
  intro k
  induction k with
  | zero => intro n s s1 h; exact ⟨0, le_refl _, by simpa [runLoop, nRounds] using h⟩
  | succ k ih =>
    intro n s s1 h
    simp only [runLoop] at h
    split at h
    · simp at h
    · next s2 hr =>
      split_ifs at h with hd
      · exact ⟨1, by omega, by simpa [nRounds, hr] using h⟩
      · obtain ⟨K, hK, hn⟩ := ih (n + 1) s2 s1 h
        exact ⟨K + 1, by omega, by simpa [nRounds, hr] using hn⟩

/-- When the first value on `done` is seen at the check that ends iteration
`n + K`, the loop is exactly `K + 1` rounds. -/
theorem runLoop_cancel {rnd : Nat → Nat} {done : Nat → Bool} {fuel : Nat} :
    ∀ k n s K, K < k → (∀ j, j < K → done (n + j) = false) → done (n + K) = true →
      runLoop rnd done fuel k n s = nRounds rnd fuel (K + 1) s := by
  intro k
  induction k with
  | zero => intro n s K hK; omega
  | succ k ih =>
    intro n s K hK hfalse htrue
    simp only [runLoop, nRounds]
    cases hr : round rnd fuel s with
    | none => rfl
    | some s2 =>
      cases K with
      | zero => simp only [Nat.add_zero] at htrue; simp [htrue, nRounds]
      | succ K =>
        have h0 : done n = false := by simpa using hfalse 0 (by omega)
        simp only [h0, Bool.false_eq_true, if_false]
        rw [ih (n + 1) s2 K (by omega)
          (fun j hj => by rw [show n + 1 + j = n + (j + 1) by omega]; exact hfalse (j + 1) (by omega))
          (by rw [show n + 1 + K = n + (K + 1) by omega]; exact htrue)]

/-- When `done` never yields, the loop is exactly as many rounds as it has
iterations. -/
theorem runLoop_full {rnd : Nat → Nat} {done : Nat → Bool} {fuel : Nat} :
    ∀ k n s, (∀ j, j < k → done (n + j) = false) →
      runLoop rnd done fuel k n s = nRounds rnd fuel k s := by
  intro k
  induction k with
  | zero => intro n s _; rfl
  | succ k ih =>
    intro n s hfalse
    simp only [runLoop, nRounds]
    cases hr : round rnd fuel s with
    | none => rfl
    | some s2 =>
      have h0 : done n = false := by simpa using hfalse 0 (by omega)
      simp only [h0, Bool.false_eq_true, if_false]
      exact ih (n + 1) s2
        (fun j hj => by rw [show n + 1 + j = n + (j + 1) by omega]; exact hfalse (j + 1) (by omega))

/-- With draws in range, a fair stream and a population of `numOfAgents`
agents, `K` rounds in a row all return. -/
theorem nRounds_total {rnd : Nat → Nat} {fuel : Nat} (hr : InRange rnd) (hf : Fair rnd fuel) :
    ∀ K s, s.a.length = numOfAgents →
      ∃ s1, nRounds rnd fuel K s = some s1 ∧ s1.a.length = numOfAgents := by
  intro K
  induction K with
  | zero => intro s hlen; exact ⟨s, rfl, hlen⟩
  | succ K ih =>
    intro s hlen
    obtain ⟨s2, h2⟩ := round_total hr hf s hlen
    obtain ⟨s1, h1, hl⟩ := ih s2 (by rw [(round_sum h2).2, hlen])
    exact ⟨s1, by simp only [nRounds, h2, h1], hl⟩

/-- The population after `K` rounds is the population after the first `K`
picked pairs have traded, in order. -/
theorem nRounds_trades {rnd : Nat → Nat} {fuel : Nat} :
    ∀ K s s1, nRounds rnd fuel K s = some s1 →
      ∃ ps, picks rnd fuel K s.pos = some ps ∧ ps.length = K ∧ trades ps s.a = some s1.a := by
  intro K
  induction K with
  | zero =>
    intro s s1 h
    simp only [nRounds, Option.some.injEq] at h
    exact ⟨[], rfl, rfl, by rw [h]; rfl⟩
  | succ K ih =>
    intro s s1 h
    simp only [nRounds] at h
    split at h
    · simp at h
    · next s2 hr =>
      obtain ⟨sender, receiver, hp, -, -, -, ht, -⟩ := round_some hr
      obtain ⟨ps, h1, h2, h3⟩ := ih s2 s1 h
      exact ⟨(sender, receiver) :: ps, by simp only [picks, hp, h1], by simp [h2],
        by simp only [trades, ht, h3]⟩

/-! ## Facts about the chart scale -/

theorem mainAgents_inv :
    mainAgents.length = numOfAgents ∧ (∀ x ∈ mainAgents, 0 < x) ∧ mainAgents.sum = 1000 := by
  refine ⟨by simp [mainAgents], ?_, ?_⟩
  · intro x hx
    rw [List.eq_of_mem_replicate hx]
    norm_num [initialWealth]
  · simp [mainAgents, numOfAgents, initialWealth]
    norm_num

/-- Every state the loop can return from the initial state has `numOfAgents`
agents, positive wealth everywhere, total wealth 1000, and a chart drawn from
its population unless no round has run. -/
theorem reach_inv {rnd : Nat → Nat} {done : Nat → Bool} {fuel k : Nat} {s : Sim}
    (h : runLoop rnd done fuel k 0 mainSim = some s) :
    s.a.length = numOfAgents ∧ (∀ x ∈ s.a, 0 < x) ∧ s.a.sum = 1000 ∧
      (s = mainSim ∨ s.bc = drawChart s.a s.bc) := by
  obtain ⟨K, -, hK⟩ := runLoop_some k 0 mainSim s h
  refine nRounds_induct
    (fun s => s.a.length = numOfAgents ∧ (∀ x ∈ s.a, 0 < x) ∧ s.a.sum = 1000 ∧
      (s = mainSim ∨ s.bc = drawChart s.a s.bc)) ?_ K mainSim s ?_ hK
  · rintro s s1 ⟨h1, h2, h3, -⟩ hr
    refine ⟨by rw [(round_sum hr).2, h1], round_pos hr h2, by rw [(round_sum hr).1, h3], ?_⟩
    obtain ⟨_, _, -, -, -, -, -, hbc⟩ := round_some hr
    exact Or.inr (by rw [hbc]; rfl)
  · exact ⟨mainAgents_inv.1, mainAgents_inv.2.1, mainAgents_inv.2.2, Or.inl rfl⟩

/-! ## Concrete runs -/

theorem cycle_inRange : InRange cycle := fun i => Nat.mod_lt i (by decide)

theorem cycle_fair : Fair cycle 1 := by
  intro p
  refine ⟨0, by decide, ?_⟩
  simp only [cycle, numOfAgents]
  omega

theorem pick_cycle : pickTwoRandomAgents cycle 1 0 = some ((0, 1), 2) := by
  simp [pickTwoRandomAgents, redraw, cycle, numOfAgents]

theorem trade_100_50 : trade [100, 50] 0 1 = some [90, 60] := by
  simp [trade, transfer, percentGain, percentLoss]
  norm_num

theorem trade_50_100 : trade [50, 100] 0 1 = some [83 / 2, 217 / 2] := by
  simp [trade, transfer, percentGain, percentLoss]
  norm_num

theorem round_cycle : round cycle 1 mainSim = some afterFirstRound := by
  simp [round, pick_cycle, mainSim, mainAgents, numOfAgents, initialWealth, trade, transfer,
    percentGain, percentLoss, drawChart, getMaxFloat64FromSlice, maxPossibleWealth,
    afterFirstRound, List.replicate]
  norm_num

theorem run_cycle_cancelled : run cycle (fun _ => true) 1 mainSim = some afterFirstRound := by
  have h : run cycle (fun _ => true) 1 mainSim = nRounds cycle 1 (0 + 1) mainSim :=
    runLoop_cancel rounds 0 mainSim 0 (by decide) (fun j hj => absurd hj (Nat.not_lt_zero j)) rfl
  rw [h]
  simp only [nRounds, round_cycle]

/-! ## The properties of the simulation -/

/-- Claim C1 (conservation): a trade between distinct indices inside the
slice returns a population with the same total wealth; hence every round of
`run` that returns keeps the total, and so does `run` as a whole. -/
theorem trade_conserves_total :
    (∀ (a : agents) (sender receiver : Nat), sender ≠ receiver → sender < a.length →
        receiver < a.length → ∃ a1, trade a sender receiver = some a1 ∧ a1.sum = a.sum) ∧
    (∀ (rnd : Nat → Nat) (fuel : Nat) (s s1 : Sim),
        round rnd fuel s = some s1 → s1.a.sum = s.a.sum) ∧
    (∀ (rnd : Nat → Nat) (done : Nat → Bool) (fuel : Nat) (s s1 : Sim),
        run rnd done fuel s = some s1 → s1.a.sum = s.a.sum) := by
  refine ⟨?_, ?_, ?_⟩
  · intro a sender receiver hne hs hr
    obtain ⟨a1, h1, h2, -⟩ := trade_sum a sender receiver hne hs hr
    exact ⟨a1, h1, h2⟩
  · intro rnd fuel s s1 h
    exact (round_sum h).1
  · intro rnd done fuel s s1 h
    obtain ⟨K, -, hK⟩ := runLoop_some rounds 0 s s1 h
    exact nRounds_induct (fun t => t.a.sum = s.a.sum)
      (fun t t1 ht hr => (round_sum hr).1.trans ht) K s s1 rfl hK

theorem trade_conserves_total_witness :
    ((0 : Nat) ≠ 1 ∧ 0 < ([100, 50] : agents).length ∧ 1 < ([100, 50] : agents).length ∧
      ∃ a1, trade [100, 50] 0 1 = some a1 ∧ a1.sum = ([100, 50] : agents).sum) ∧
    (round cycle 1 mainSim = some afterFirstRound ∧
      afterFirstRound.a.sum = mainSim.a.sum) ∧
    (run cycle (fun _ => true) 1 mainSim = some afterFirstRound ∧
      afterFirstRound.a.sum = mainSim.a.sum) :=
  ⟨⟨by decide, by decide, by decide,
      trade_conserves_total.1 [100, 50] 0 1 (by decide) (by decide) (by decide)⟩,
    ⟨round_cycle, trade_conserves_total.2.1 cycle 1 mainSim afterFirstRound round_cycle⟩,
    ⟨run_cycle_cancelled,
      trade_conserves_total.2.2 cycle (fun _ => true) 1 mainSim afterFirstRound
        run_cycle_cancelled⟩⟩

/-- Claim C2 (no debt): in a population without negative wealth, the amount
that a trade between distinct indices inside the slice moves is at most the
sender's wealth, the trade takes that amount from the sender and gives it to
the receiver, and no wealth is negative afterwards; the two fractions are
0.20 and 0.17. -/
theorem trade_no_debt (a : agents) (sender receiver : Nat) (hne : sender ≠ receiver)
    (hs : sender < a.length) (hr : receiver < a.length) (h0 : ∀ x ∈ a, 0 ≤ x) :
    percentGain = 20 / 100 ∧ percentLoss = 17 / 100 ∧
    ∃ t a1, transfer a sender receiver = some t ∧ t ≤ a[sender] ∧
      trade a sender receiver = some a1 ∧
      a1 = (a.set sender (a[sender] - t)).set receiver (a[receiver] + t) ∧
      ∀ x ∈ a1, 0 ≤ x := by
  refine ⟨rfl, rfl, amount a[sender] a[receiver], _, transfer_eq a sender receiver hs hr,
    amount_le a[sender] a[receiver] (h0 _ (List.getElem_mem hs)), trade_eq a sender receiver hne hs hr, rfl, ?_⟩
  obtain ⟨a1, h1, h2⟩ := trade_nonneg a sender receiver hne hs hr h0
  rw [trade_eq a sender receiver hne hs hr] at h1
  cases h1
  exact h2

theorem trade_no_debt_witness :
    (0 : Nat) ≠ 1 ∧ (∀ x ∈ ([0, 50] : agents), 0 ≤ x) ∧
    ∃ t a1, transfer [0, 50] 0 1 = some t ∧ t ≤ 0 ∧ trade [0, 50] 0 1 = some a1 ∧
      a1 = (([0, 50] : agents).set 0 (0 - t)).set 1 (50 + t) ∧ ∀ x ∈ a1, 0 ≤ x :=
  ⟨by decide, by simp,
    (trade_no_debt [0, 50] 0 1 (by decide) (by decide) (by decide) (by simp)).2.2⟩

/-- Claim C3 (transfer rule): between distinct indices inside the slice,
`trade` takes from `a[sender]` and gives to `a[receiver]` the amount
`a[sender] * 0.17` when `a[sender] < a[receiver]`, and the amount
`a[receiver] * 0.20` when the receiver is the poorer one (or as rich);
`(100, 50)` becomes `(90, 60)` and `(50, 100)` becomes `(41.5, 108.5)`. -/
theorem trade_transfer_rule :
    (∀ (a : agents) (sender receiver : Nat) (_ : sender ≠ receiver) (hs : sender < a.length)
        (hr : receiver < a.length), a[sender] < a[receiver] →
        trade a sender receiver =
          some ((a.set sender (a[sender] - a[sender] * (17 / 100))).set receiver
            (a[receiver] + a[sender] * (17 / 100)))) ∧
    (∀ (a : agents) (sender receiver : Nat) (_ : sender ≠ receiver) (hs : sender < a.length)
        (hr : receiver < a.length), a[receiver] ≤ a[sender] →
        trade a sender receiver =
          some ((a.set sender (a[sender] - a[receiver] * (20 / 100))).set receiver
            (a[receiver] + a[receiver] * (20 / 100)))) ∧
    trade [100, 50] 0 1 = some [90, 60] ∧
    trade [50, 100] 0 1 = some [415 / 10, 1085 / 10] := by
  refine ⟨?_, ?_, trade_100_50, ?_⟩
  · intro a sender receiver hne hs hr hlt
    rw [trade_eq a sender receiver hne hs hr]
    simp only [amount, if_pos hlt, percentLoss]
  · intro a sender receiver hne hs hr hle
    rw [trade_eq a sender receiver hne hs hr]
    simp only [amount, if_neg (not_lt.mpr hle), percentGain]
  · rw [trade_50_100]
    norm_num

theorem trade_transfer_rule_witness :
    ((0 : Nat) ≠ 1 ∧ ([50, 100] : agents)[0] < ([50, 100] : agents)[1] ∧
      trade [50, 100] 0 1 =
        some ((([50, 100] : agents).set 0 (50 - 50 * (17 / 100))).set 1
          (100 + 50 * (17 / 100)))) ∧
    ((0 : Nat) ≠ 1 ∧ ([100, 50] : agents)[1] ≤ ([100, 50] : agents)[0] ∧
      trade [100, 50] 0 1 =
        some ((([100, 50] : agents).set 0 (100 - 50 * (20 / 100))).set 1
          (50 + 50 * (20 / 100)))) :=
  ⟨⟨by decide, by norm_num,
      trade_transfer_rule.1 [50, 100] 0 1 (by decide) (by decide) (by decide) (by norm_num)⟩,
    ⟨by decide, by norm_num,
      trade_transfer_rule.2.1 [100, 50] 0 1 (by decide) (by decide) (by decide)
        (by norm_num)⟩⟩

/-- Claim C4 (distinct pair): on a random stream that yields integers in
`[0, numOfAgents)`, whenever `pickTwoRandomAgents` returns `(sender, receiver)`
the two differ and both lie in `[0, numOfAgents)`, where `numOfAgents = 10`. -/
theorem pick_distinct_in_range (rnd : Nat → Nat) (hrange : InRange rnd)
    (fuel pos sender receiver pos1 : Nat)
    (h : pickTwoRandomAgents rnd fuel pos = some ((sender, receiver), pos1)) :
    sender ≠ receiver ∧ sender < numOfAgents ∧ receiver < numOfAgents ∧ numOfAgents = 10 :=
  ⟨pick_ne rnd fuel pos sender receiver pos1 h,
    (pick_lt rnd numOfAgents hrange fuel pos sender receiver pos1 h).1,
    (pick_lt rnd numOfAgents hrange fuel pos sender receiver pos1 h).2, rfl⟩

theorem pick_distinct_in_range_witness :
    InRange cycle ∧ pickTwoRandomAgents cycle 1 0 = some ((0, 1), 2) ∧
      ((0 : Nat) ≠ 1 ∧ 0 < numOfAgents ∧ 1 < numOfAgents ∧ numOfAgents = 10) :=
  ⟨cycle_inRange, pick_cycle, pick_distinct_in_range cycle cycle_inRange 1 0 0 1 2 pick_cycle⟩

/-- Claim C5 (round count and cancellation): whatever `run` returns is the
population after a whole number, at most `rounds`, of picked trades and
nothing else; when the `done` channel first yields at the check after round
`K` (`1 ≤ K ≤ rounds`), `run` is exactly `K` rounds; when it never yields,
`run` is exactly `rounds = 10000` rounds; and on a fair stream of draws in
range, from a population of `numOfAgents` agents, `K` rounds return the
population after exactly the first `K` picked trades. -/
theorem run_round_count (rnd : Nat → Nat) (done : Nat → Bool) (fuel : Nat) (s : Sim) :
    (∀ s1, run rnd done fuel s = some s1 →
      ∃ K ps, K ≤ rounds ∧ picks rnd fuel K s.pos = some ps ∧ ps.length = K ∧
        trades ps s.a = some s1.a) ∧
    (∀ K, 1 ≤ K → K ≤ rounds → (∀ j, j < K - 1 → done j = false) → done (K - 1) = true →
      run rnd done fuel s = nRounds rnd fuel K s) ∧
    ((∀ j, j < rounds → done j = false) →
      run rnd done fuel s = nRounds rnd fuel rounds s) ∧
    (InRange rnd → Fair rnd fuel → s.a.length = numOfAgents →
      ∀ K, ∃ sK ps, nRounds rnd fuel K s = some sK ∧ picks rnd fuel K s.pos = some ps ∧
        ps.length = K ∧ trades ps s.a = some sK.a) ∧
    rounds = 10000 := by
  refine ⟨?_, ?_, ?_, ?_, rfl⟩
  · intro s1 h
    obtain ⟨K, hK, hn⟩ := runLoop_some rounds 0 s s1 h
    obtain ⟨ps, h1, h2, h3⟩ := nRounds_trades K s s1 hn
    exact ⟨K, ps, hK, h1, h2, h3⟩
  · intro K h1 h2 hfalse htrue
    obtain ⟨K, rfl⟩ : ∃ K1, K = K1 + 1 := ⟨K - 1, by omega⟩
    exact runLoop_cancel rounds 0 s K (by omega)
      (fun j hj => by rw [Nat.zero_add]; exact hfalse j (by omega))
      (by rw [Nat.zero_add]; exact htrue)
  · intro hfalse
    exact runLoop_full rounds 0 s (fun j hj => by rw [Nat.zero_add]; exact hfalse j hj)
  · intro hr hf hlen K
    obtain ⟨sK, h1, -⟩ := nRounds_total hr hf K s hlen
    obtain ⟨ps, h2, h3, h4⟩ := nRounds_trades K s sK h1
    exact ⟨sK, ps, h1, h2, h3, h4⟩

theorem run_round_count_witness :
    (run cycle (fun _ => true) 1 mainSim = some afterFirstRound ∧
      ∃ K ps, K ≤ rounds ∧ picks cycle 1 K mainSim.pos = some ps ∧ ps.length = K ∧
        trades ps mainSim.a = some afterFirstRound.a) ∧
    ((1 ≤ 3 ∧ 3 ≤ rounds ∧ (∀ j, j < 3 - 1 → decide (j = 2) = false) ∧
        decide (2 = 2) = true) ∧
      run cycle (fun n => decide (n = 2)) 1 mainSim = nRounds cycle 1 3 mainSim) ∧
    ((∀ j, j < rounds → (fun _ => false) j = false) ∧
      run cycle (fun _ => false) 1 mainSim = nRounds cycle 1 rounds mainSim) ∧
    ((InRange cycle ∧ Fair cycle 1 ∧ mainSim.a.length = numOfAgents) ∧
      ∃ sK ps, nRounds cycle 1 3 mainSim = some sK ∧ picks cycle 1 3 mainSim.pos = some ps ∧
        ps.length = 3 ∧ trades ps mainSim.a = some sK.a) :=
  ⟨⟨run_cycle_cancelled,
      (run_round_count cycle (fun _ => true) 1 mainSim).1 afterFirstRound run_cycle_cancelled⟩,
    ⟨⟨by decide, by decide, fun j hj => by simp; omega, by decide⟩,
      (run_round_count cycle (fun n => decide (n = 2)) 1 mainSim).2.1 3 (by decide) (by decide)
        (fun j hj => by simp; omega) (by decide)⟩,
    ⟨fun _ _ => rfl,
      (run_round_count cycle (fun _ => false) 1 mainSim).2.2.1 (fun _ _ => rfl)⟩,
    ⟨⟨cycle_inRange, cycle_fair, mainAgents_inv.1⟩,
      (run_round_count cycle (fun _ => false) 1 mainSim).2.2.2.1 cycle_inRange cycle_fair
        mainAgents_inv.1 3⟩⟩

/-- Claim C9 (nobody goes completely broke): in a population of strictly
positive wealth a trade between distinct indices inside the slice leaves
every wealth strictly positive; hence in every state that the loop started by
`main` reaches every wealth is strictly positive, none is 0, and a trade
between distinct agents moves a strictly positive amount. -/
theorem wealth_stays_positive :
    (∀ (a : agents) (sender receiver : Nat), sender ≠ receiver → sender < a.length →
      receiver < a.length → (∀ x ∈ a, 0 < x) →
      ∃ a1, trade a sender receiver = some a1 ∧ ∀ x ∈ a1, 0 < x) ∧
    (∀ (rnd : Nat → Nat) (done : Nat → Bool) (fuel k : Nat) (s : Sim),
      runLoop rnd done fuel k 0 mainSim = some s →
      (∀ x ∈ s.a, 0 < x) ∧ (∀ x ∈ s.a, x ≠ 0) ∧
      ∀ sender receiver, sender ≠ receiver → sender < numOfAgents → receiver < numOfAgents →
        ∃ t, transfer s.a sender receiver = some t ∧ 0 < t) := by
  refine ⟨trade_pos, ?_⟩
  intro rnd done fuel k s h
  obtain ⟨hlen, hpos, -, -⟩ := reach_inv h
  refine ⟨hpos, fun x hx => ne_of_gt (hpos x hx), ?_⟩
  intro sender receiver _ hs hr
  have hs1 : sender < s.a.length := by omega
  have hr1 : receiver < s.a.length := by omega
  exact ⟨_, transfer_eq s.a sender receiver hs1 hr1,
    amount_pos (hpos _ (List.getElem_mem hs1)) (hpos _ (List.getElem_mem hr1))⟩

theorem wealth_stays_positive_witness :
    (((0 : Nat) ≠ 1 ∧ (∀ x ∈ ([100, 50] : agents), 0 < x)) ∧
      ∃ a1, trade [100, 50] 0 1 = some a1 ∧ ∀ x ∈ a1, 0 < x) ∧
    (run cycle (fun _ => true) 1 mainSim = some afterFirstRound ∧
      (∀ x ∈ afterFirstRound.a, 0 < x) ∧ (∀ x ∈ afterFirstRound.a, x ≠ 0) ∧
      ∀ sender receiver, sender ≠ receiver → sender < numOfAgents → receiver < numOfAgents →
        ∃ t, transfer afterFirstRound.a sender receiver = some t ∧ 0 < t) :=
  ⟨⟨⟨by decide, by simp⟩,
      wealth_stays_positive.1 [100, 50] 0 1 (by decide) (by decide) (by decide) (by simp)⟩,
    ⟨run_cycle_cancelled,
      wealth_stays_positive.2 cycle (fun _ => true) 1 rounds afterFirstRound
        run_cycle_cancelled⟩⟩

end Rich
